import Mathlib

/-!
Verification development for the CasADi CRS sparsity-pattern core
(`src/casadi/matrix/crs_sparsity.hpp`).

The repository ships only the header of `CRSSparsity` / `CRSSparsityNode`;
the data layout and the inline node constructor and `clone` come from that
header, and every method body is modelled from the specification, as noted
on each definition.  Machine `int`s only ever hold non-negative row, column
and linear-index values here, so they are embedded as `Nat`; the `-1`
sentinel of the read-only `getNZ` makes that one function return `Int`.
-/

namespace CasADi

/-- Backing store of a sparsity pattern, translated from `CRSSparsityNode`
(`crs_sparsity.hpp`, lines 182-207): row count `nrow_`, column count `ncol_`,
the column of every structural non-zero (`col_`, length nnz) and the
row-offset vector (`rowind_`, length `nrow_ + 1`). -/
structure CRSSparsityNode where
  nrow_ : Nat
  ncol_ : Nat
  col_ : List Nat
  rowind_ : List Nat
deriving DecidableEq

/-- A default node value (used only as the `getD` fallback of the store model). -/
def emptyNode : CRSSparsityNode := ⟨0, 0, [], []⟩

/-- `CRSSparsity::size1`: number of rows. -/
def size1 (s : CRSSparsityNode) : Nat := s.nrow_

/-- `CRSSparsity::size2`: number of columns. -/
def size2 (s : CRSSparsityNode) : Nat := s.ncol_

/-- `CRSSparsity::numel`: number of elements including structural zeros. -/
def numel (s : CRSSparsityNode) : Nat := s.nrow_ * s.ncol_

/-- `CRSSparsity::size`: number of structural non-zeros. -/
def size (s : CRSSparsityNode) : Nat := s.col_.length

/-- `CRSSparsity::col()`: the full column array. -/
def colList (s : CRSSparsityNode) : List Nat := s.col_

/-- `CRSSparsity::rowind()`: the full row-offset array. -/
def rowindList (s : CRSSparsityNode) : List Nat := s.rowind_

/-- `CRSSparsity::col(k)`: bounds-checked column of the non-zero at linear
index `k`; `none` models the `OutOfRange` failure. -/
def colAt (s : CRSSparsityNode) (k : Nat) : Option Nat := s.col_[k]?

/-- `CRSSparsity::rowind(i)`: the row offset at row `i`. -/
def rowindAt (s : CRSSparsityNode) (i : Nat) : Nat := s.rowind_.getD i 0

/-- The column slice of row `i`: `colIndex[rowStart[i] .. rowStart[i+1])`. -/
def rowSlice (s : CRSSparsityNode) (i : Nat) : List Nat :=
  (s.col_.drop (rowindAt s i)).take (rowindAt s (i+1) - rowindAt s i)

/-- The pattern viewed as one column list per row. -/
def toRows (s : CRSSparsityNode) : List (List Nat) :=
  (List.range s.nrow_).map (fun i => rowSlice s i)

/-- Number of non-zeros stored before row `i` when the per-row column lists
are `rows`. -/
def offs : List (List Nat) → Nat → Nat
  | _, 0 => 0
  | [], _ + 1 => 0
  | r :: rs, i + 1 => r.length + offs rs i

/-- The canonical row-offset array of a list of rows. -/
def mkRowind (rows : List (List Nat)) : List Nat :=
  (List.range (rows.length + 1)).map (offs rows)

/-- Rebuild a node from one column list per row. -/
def fromRows (ncol : Nat) (rows : List (List Nat)) : CRSSparsityNode :=
  ⟨rows.length, ncol, rows.flatten, mkRowind rows⟩

/-- Well-formedness of a list of per-row column lists: each row strictly
increasing with all columns in range. -/
def RowsWF (ncol : Nat) (rows : List (List Nat)) : Prop :=
  ∀ r ∈ rows, r.Chain' (· < ·) ∧ ∀ c ∈ r, c < ncol

instance (ncol : Nat) (rows : List (List Nat)) : Decidable (RowsWF ncol rows) :=
  inferInstanceAs (Decidable (∀ r ∈ rows, r.Chain' (· < ·) ∧ ∀ c ∈ r, c < ncol))

/-- Executable check that a list of naturals is non-decreasing. -/
def chainLeB : List Nat → Bool
  | [] => true
  | [_] => true
  | a :: b :: t => decide (a ≤ b) && chainLeB (b :: t)

/-- Executable check that a list of naturals is strictly increasing. -/
def chainLtB : List Nat → Bool
  | [] => true
  | [_] => true
  | a :: b :: t => decide (a < b) && chainLtB (b :: t)

theorem chainLeB_iff : ∀ l : List Nat, chainLeB l = true ↔ l.Chain' (· ≤ ·)
  | [] => by simp [chainLeB]
  | [a] => by simp [chainLeB]
  | a :: b :: t => by
    rw [List.chain'_cons]
    simp [chainLeB, chainLeB_iff (b :: t)]

theorem chainLtB_iff : ∀ l : List Nat, chainLtB l = true ↔ l.Chain' (· < ·)
  | [] => by simp [chainLtB]
  | [a] => by simp [chainLtB]
  | a :: b :: t => by
    rw [List.chain'_cons]
    simp [chainLtB, chainLtB_iff (b :: t)]

/-- The structural invariants of the pattern (spec §3, invariants 1-4):
`rowStart` has length `rows + 1`, starts at 0, ends at `nnz`, is
non-decreasing, every row slice is strictly increasing, and every stored
column is in range. -/
def Invariant (s : CRSSparsityNode) : Prop :=
  s.rowind_.length = s.nrow_ + 1 ∧
  rowindAt s 0 = 0 ∧
  rowindAt s s.nrow_ = s.col_.length ∧
  s.rowind_.Chain' (· ≤ ·) ∧
  (∀ i < s.nrow_, (rowSlice s i).Chain' (· < ·)) ∧
  (∀ c ∈ s.col_, c < s.ncol_)

instance (s : CRSSparsityNode) : Decidable (Invariant s) :=
  decidable_of_iff (s.rowind_.length = s.nrow_ + 1 ∧
    rowindAt s 0 = 0 ∧
    rowindAt s s.nrow_ = s.col_.length ∧
    chainLeB s.rowind_ = true ∧
    (∀ i < s.nrow_, chainLtB (rowSlice s i) = true) ∧
    (∀ c ∈ s.col_, c < s.ncol_))
    (by
      constructor
      · rintro ⟨h1, h2, h3, h4, h5, h6⟩
        exact ⟨h1, h2, h3, (chainLeB_iff _).mp h4,
          fun i hi => (chainLtB_iff _).mp (h5 i hi), h6⟩
      · rintro ⟨h1, h2, h3, h4, h5, h6⟩
        exact ⟨h1, h2, h3, (chainLeB_iff _).mpr h4,
          fun i hi => (chainLtB_iff _).mpr (h5 i hi), h6⟩)

/-- `(i,j)` is a structural non-zero of the pattern. -/
def isNZ (s : CRSSparsityNode) (i j : Nat) : Prop :=
  i < s.nrow_ ∧ j ∈ rowSlice s i

instance (s : CRSSparsityNode) (i j : Nat) : Decidable (isNZ s i j) :=
  inferInstanceAs (Decidable (i < s.nrow_ ∧ j ∈ rowSlice s i))

/-- Modelled from the spec (§4.1; the body of `CRSSparsity(nrow, ncol, dense)`
is not under `src/`): empty pattern if not dense, full if dense with
`colIndex = [0..cols)` repeated per row and `rowStart[i] = i*cols`. -/
def mkCRSSparsity (nrow ncol : Nat) (dense : Bool) : CRSSparsityNode :=
  if dense then fromRows ncol ((List.range nrow).map (fun _ => List.range ncol))
  else fromRows ncol (List.replicate nrow [])

/-- Truncate or pad a list of rows to exactly `n` rows (new rows empty). -/
def padTo (n : Nat) (rows : List (List Nat)) : List (List Nat) :=
  rows.take n ++ List.replicate (n - rows.length) []

/-- Modelled from the spec (§4.1 and §9; the body of `CRSSparsity::resize` is
not under `src/`): a rebuild pass — keep the surviving rows (new rows are
empty), emit only columns `< ncol`, recompute `rowStart`. -/
def resize (s : CRSSparsityNode) (nrow ncol : Nat) : CRSSparsityNode :=
  fromRows ncol ((padTo nrow (toRows s)).map (List.filter (fun c => decide (c < ncol))))

/-- Insert column `j` into a sorted column list, keeping it sorted and
duplicate-free. -/
def insertCol (j : Nat) : List Nat → List Nat
  | [] => [j]
  | c :: cs => if j < c then j :: c :: cs else if j = c then c :: cs else c :: insertCol j cs

/-- The position at which `insertCol` places (or finds) column `j`. -/
def insPos (j : Nat) : List Nat → Nat
  | [] => 0
  | c :: cs => if j ≤ c then 0 else insPos j cs + 1

/-- Position of column `j` in a column list (`none` if absent): the result of
the search over the sorted row slice. -/
def lookupCol (j : Nat) : List Nat → Option Nat
  | [] => none
  | c :: cs => if c = j then some 0 else (lookupCol j cs).map (· + 1)

/-- Modelled from the spec (§4.1; the body of the mutating `CRSSparsity::getNZ`
is not under `src/`): after the bounds check (`none` models the `OutOfRange`
failure) return the linear index of `(i,j)`, inserting the element in sorted
position within row `i` — which shifts all subsequent `rowStart` entries up by
one — when it is not yet structural. -/
def getNZ (s : CRSSparsityNode) (i j : Nat) : Option (Nat × CRSSparsityNode) :=
  if i < s.nrow_ ∧ j < s.ncol_ then
    some (rowindAt s i + insPos j (rowSlice s i),
          fromRows s.ncol_ ((toRows s).set i (insertCol j (rowSlice s i))))
  else none

/-- Modelled from the spec (§4.1; the body of the const `CRSSparsity::getNZ`
is not under `src/`): lookup over the sorted row slice; `-1` if absent; never
mutates. -/
def getNZ_const (s : CRSSparsityNode) (i j : Nat) : Int :=
  match lookupCol j (rowSlice s i) with
  | some p => ((rowindAt s i + p : Nat) : Int)
  | none => -1

/-- Modelled from the spec (§4.1; the body of `CRSSparsity::getRow` is not
under `src/`): the row of every non-zero, derived from `rowStart` by expanding
each row's span. -/
def getRow (s : CRSSparsityNode) : List Nat :=
  ((List.range s.nrow_).map
      (fun i => List.replicate (rowindAt s (i+1) - rowindAt s i) i)).flatten

/-- Modelled from the spec (§4.2; the body of `CRSSparsity::bucketSort` is not
under `src/`): scan the non-zeros in storage order (rows `0..rows` in order,
within each row the stored ascending column order — i.e. `k = 0, 1, 2, ...`),
appending each linear index `k` to `buckets[colIndex[k]]`; the second result
is the row of every linear index. -/
def bucketSort (s : CRSSparsityNode) : List (List Nat) × List Nat :=
  ((List.range s.col_.length).foldl
      (fun bs k => bs.set (s.col_.getD k 0) (bs.getD (s.col_.getD k 0) [] ++ [k]))
      (List.replicate s.ncol_ []),
   getRow s)

/-- Modelled from the spec (§4.3; the body of `CRSSparsity::transpose` is not
under `src/`): bucket-sort the non-zeros by column; row `j` of the transpose
is bucket `j` with every old linear index replaced by its old row; the
`mapping` output is the concatenation of the buckets in column order. -/
def transpose (s : CRSSparsityNode) : CRSSparsityNode × List Nat :=
  (fromRows s.nrow_
      ((bucketSort s).1.map (fun b => b.map (fun k => (bucketSort s).2.getD k 0))),
   (bucketSort s).1.flatten)

/-- An operation of the mutating fragment of the public contract: `resize` or
the insertion form of `getNZ`. -/
inductive SpOp where
  | resizeOp (nrow ncol : Nat)
  | insertOp (i j : Nat)
deriving DecidableEq

/-- Apply one mutating operation; a failed (`OutOfRange`) insertion leaves the
pattern unchanged, as the exception propagates before any mutation. -/
def applyOp (s : CRSSparsityNode) : SpOp → CRSSparsityNode
  | .resizeOp n m => resize s n m
  | .insertOp i j =>
      match getNZ s i j with
      | some (_, t) => t
      | none => s

/-- Apply a sequence of mutating operations in order. -/
def applyOps (s : CRSSparsityNode) (ops : List SpOp) : CRSSparsityNode :=
  ops.foldl applyOp s

/-- A heap of shared nodes together with the handles (`CRSSparsity` objects)
referencing them; `none` is a null handle (default constructor).  Modelled
from the spec (§2, §4.4): the shared-object machinery of `shared_object.hpp`
is not under `src/`. -/
structure CRSStore where
  nodes : List CRSSparsityNode
  handles : List (Option Nat)
deriving DecidableEq

/-- The node a handle currently sees (`none` for a null handle). -/
def observe (st : CRSStore) (h : Nat) : Option CRSSparsityNode :=
  match st.handles.getD h none with
  | some nid => some (st.nodes.getD nid emptyNode)
  | none => none

/-- Reference count of node `nid`: how many handles share it. -/
def refCount (st : CRSStore) (nid : Nat) : Nat :=
  st.handles.count (some nid)

/-- `CRSSparsity::checkNode`: whether the handle points to a `CRSSparsityNode`. -/
def checkNode (st : CRSStore) (h : Nat) : Bool :=
  (observe st h).isSome

/-- Modelled from the spec (§4.4; `shared_object.hpp` and all method bodies
are not under `src/`): a mutating operation through handle `h` first clones
the node (`CRSSparsityNode::clone`, a value copy) when its reference count
exceeds one, mutates the private clone and adopts it for `h` only; otherwise
it mutates the exclusively-owned node in place.  A null handle is left
untouched. -/
def mutateThrough (st : CRSStore) (h : Nat) (f : CRSSparsityNode → CRSSparsityNode) : CRSStore :=
  match st.handles.getD h none with
  | none => st
  | some nid =>
      if 1 < refCount st nid then
        { nodes := st.nodes ++ [f (st.nodes.getD nid emptyNode)],
          handles := st.handles.set h (some st.nodes.length) }
      else
        { nodes := st.nodes.set nid (f (st.nodes.getD nid emptyNode)),
          handles := st.handles }

/-- `resize` through a handle (mutating, copy-on-write). -/
def store_resize (st : CRSStore) (h : Nat) (nrow ncol : Nat) : CRSStore :=
  mutateThrough st h (fun nd => resize nd nrow ncol)

/-- The insertion form of `getNZ` through a handle (mutating, copy-on-write). -/
def store_getNZ (st : CRSStore) (h : Nat) (i j : Nat) : CRSStore :=
  mutateThrough st h (fun nd => match getNZ nd i j with | some (_, t) => t | none => nd)

/-- The read-only `getNZ` through a handle: returns the store unchanged
together with the looked-up index — read-only operations never clone. -/
def store_getNZ_const (st : CRSStore) (h : Nat) (i j : Nat) : CRSStore × Int :=
  (st, match observe st h with | some nd => getNZ_const nd i j | none => -1)

/-- Default constructor `CRSSparsity()` (`crs_sparsity.hpp`, line 60): a null
handle referencing no node. -/
def newNullHandle (st : CRSStore) : CRSStore × Nat :=
  ({ st with handles := st.handles ++ [none] }, st.handles.length)

/-- Constructor `CRSSparsity(nrow, ncol, dense)` at store level: allocate a
node and a fresh handle referencing it. -/
def newPatternHandle (st : CRSStore) (nrow ncol : Nat) (dense : Bool) : CRSStore × Nat :=
  ({ nodes := st.nodes ++ [mkCRSSparsity nrow ncol dense],
     handles := st.handles ++ [some st.nodes.length] }, st.handles.length)

/-- A handle entry is either null or points inside the node heap. -/
def okHandle (len : Nat) : Option Nat → Prop
  | none => True
  | some nid => nid < len

instance (len : Nat) : (o : Option Nat) → Decidable (okHandle len o)
  | none => isTrue trivial
  | some nid => inferInstanceAs (Decidable (nid < len))

/-- Store well-formedness: every handle is null or points inside the heap. -/
def StoreWF (st : CRSStore) : Prop :=
  ∀ o ∈ st.handles, okHandle st.nodes.length o

instance (st : CRSStore) : Decidable (StoreWF st) :=
  inferInstanceAs (Decidable (∀ o ∈ st.handles, okHandle st.nodes.length o))

theorem lookupCol_eq_none (j : Nat) :
    ∀ l : List Nat, lookupCol j l = none ↔ j ∉ l
  | [] => by simp [lookupCol]
  | c :: cs => by
    by_cases h : c = j
    · simp [lookupCol, h]
    · have := lookupCol_eq_none j cs
      simp [lookupCol, h, Option.map_eq_none', this]
      intro hx
      exact fun he => h he.symm

theorem lookupCol_some_bound (j : Nat) :
    ∀ l : List Nat, ∀ p : Nat, lookupCol j l = some p → p < l.length ∧ l.getD p 0 = j
  | [], p => by simp [lookupCol]
  | c :: cs, p => by
    by_cases h : c = j
    · simp [lookupCol, h]
      rintro rfl
      simp [h]
    · simp [lookupCol, h]
      rintro q hq rfl
      have := lookupCol_some_bound j cs q hq
      simpa using this

theorem lookupCol_insertCol (j : Nat) :
    ∀ l : List Nat, lookupCol j (insertCol j l) = some (insPos j l)
  | [] => by simp [insertCol, lookupCol, insPos]
  | c :: cs => by
    rcases Nat.lt_trichotomy j c with hlt | heq | hgt
    · have hle : j ≤ c := Nat.le_of_lt hlt
      simp [insertCol, hlt, lookupCol, insPos, hle]
    · subst heq
      simp [insertCol, lookupCol, insPos]
    · have h1 : ¬ j < c := Nat.not_lt.mpr (Nat.le_of_lt hgt)
      have h2 : ¬ j = c := Nat.ne_of_gt hgt
      have h3 : ¬ j ≤ c := Nat.not_le.mpr hgt
      have h4 : ¬ c = j := fun he => h2 he.symm
      simp [insertCol, h1, h2, lookupCol, h4, insPos, h3, lookupCol_insertCol j cs]

theorem insPos_lt_length_insertCol (j : Nat) :
    ∀ l : List Nat, insPos j l < (insertCol j l).length
  | [] => by simp [insertCol, insPos]
  | c :: cs => by
    rcases Nat.lt_trichotomy j c with hlt | heq | hgt
    · have hle : j ≤ c := Nat.le_of_lt hlt
      simp [insertCol, hlt, insPos, hle]
    · subst heq
      simp [insertCol, insPos]
    · have h1 : ¬ j < c := Nat.not_lt.mpr (Nat.le_of_lt hgt)
      have h2 : ¬ j = c := Nat.ne_of_gt hgt
      have h3 : ¬ j ≤ c := Nat.not_le.mpr hgt
      have := insPos_lt_length_insertCol j cs
      simp [insertCol, h1, h2, insPos, h3]
      omega

theorem insertCol_getD_insPos (j : Nat) :
    ∀ l : List Nat, (insertCol j l).getD (insPos j l) 0 = j
  | [] => by simp [insertCol, insPos]
  | c :: cs => by
    rcases Nat.lt_trichotomy j c with hlt | heq | hgt
    · have hle : j ≤ c := Nat.le_of_lt hlt
      simp [insertCol, hlt, insPos, hle]
    · subst heq
      simp [insertCol, insPos]
    · have h1 : ¬ j < c := Nat.not_lt.mpr (Nat.le_of_lt hgt)
      have h2 : ¬ j = c := Nat.ne_of_gt hgt
      have h3 : ¬ j ≤ c := Nat.not_le.mpr hgt
      simp only [insertCol, if_neg h1, if_neg h2, insPos, if_neg h3, List.getD_cons_succ]
      exact insertCol_getD_insPos j cs

theorem mem_insertCol (j x : Nat) :
    ∀ l : List Nat, x ∈ insertCol j l → x = j ∨ x ∈ l
  | [] => by simp [insertCol]
  | c :: cs => by
    rcases Nat.lt_trichotomy j c with hlt | heq | hgt
    · simp only [insertCol, if_pos hlt, List.mem_cons]
      tauto
    · subst heq
      simp only [insertCol, if_neg (Nat.lt_irrefl j), if_pos rfl]
      exact fun hx => Or.inr hx
    · have h1 : ¬ j < c := Nat.not_lt.mpr (Nat.le_of_lt hgt)
      have h2 : ¬ j = c := Nat.ne_of_gt hgt
      simp only [insertCol, if_neg h1, if_neg h2, List.mem_cons]
      intro hx
      rcases hx with hx | hx
      · right; left; exact hx
      · rcases mem_insertCol j x cs hx with h | h
        · left; exact h
        · right; right; exact h

theorem insertCol_pairwise (j : Nat) :
    ∀ l : List Nat, l.Pairwise (· < ·) → (insertCol j l).Pairwise (· < ·)
  | [], _ => by simp [insertCol]
  | c :: cs, h => by
    rcases List.pairwise_cons.mp h with ⟨hc, hcs⟩
    rcases Nat.lt_trichotomy j c with hlt | heq | hgt
    · simp only [insertCol, if_pos hlt]
      refine List.pairwise_cons.mpr ⟨?_, h⟩
      intro x hx
      rcases List.mem_cons.mp hx with rfl | hx'
      · exact hlt
      · exact hlt.trans (hc x hx')
    · subst heq
      simp only [insertCol, if_neg (Nat.lt_irrefl j), if_pos rfl]
      exact h
    · have h1 : ¬ j < c := Nat.not_lt.mpr (Nat.le_of_lt hgt)
      have h2 : ¬ j = c := Nat.ne_of_gt hgt
      simp only [insertCol, if_neg h1, if_neg h2]
      refine List.pairwise_cons.mpr ⟨?_, insertCol_pairwise j cs hcs⟩
      intro x hx
      rcases mem_insertCol j x cs hx with rfl | hx'
      · exact hgt
      · exact hc x hx'

theorem insertCol_chain (j : Nat) (l : List Nat) (h : l.Chain' (· < ·)) :
    (insertCol j l).Chain' (· < ·) := by
  rw [List.chain'_iff_pairwise] at h ⊢
  exact insertCol_pairwise j l h

theorem offs_nil (i : Nat) : offs [] i = 0 := by
  cases i <;> rfl

theorem offs_zero (L : List (List Nat)) : offs L 0 = 0 := by
  cases L <;> rfl

theorem offs_succ_getD : ∀ (L : List (List Nat)) (i : Nat), i < L.length →
    offs L (i+1) = offs L i + (L.getD i []).length
  | [], i, h => by simp at h
  | r :: rs, 0, _ => by simp [offs]
  | r :: rs, i+1, h => by
    simp only [offs, List.getD_cons_succ]
    rw [offs_succ_getD rs i (by simpa using h)]
    omega

theorem offs_le_succ : ∀ (L : List (List Nat)) (i : Nat), offs L i ≤ offs L (i+1)
  | [], i => by rw [offs_nil, offs_nil]
  | r :: rs, 0 => by simp [offs]
  | r :: rs, i+1 => by
    simp only [offs]
    exact Nat.add_le_add_left (offs_le_succ rs i) _

theorem offs_length_eq : ∀ (L : List (List Nat)), offs L L.length = L.flatten.length
  | [] => rfl
  | r :: rs => by
    simp only [List.length_cons, offs, List.flatten_cons, List.length_append]
    rw [offs_length_eq rs]

theorem flatten_getD_offs : ∀ (L : List (List Nat)) (i p d : Nat),
    i < L.length → p < (L.getD i []).length →
    L.flatten.getD (offs L i + p) d = (L.getD i []).getD p d
  | [], i, p, d, hi, _ => by simp at hi
  | r :: rs, 0, p, d, _, hp => by
    simp only [offs, Nat.zero_add, List.flatten_cons, List.getD_cons_zero] at *
    exact List.getD_append r rs.flatten d p hp
  | r :: rs, i+1, p, d, hi, hp => by
    simp only [offs, List.flatten_cons, List.getD_cons_succ, List.length_cons] at *
    rw [Nat.add_assoc, List.getD_append_right r rs.flatten d _ (Nat.le_add_right _ _),
      Nat.add_sub_cancel_left]
    exact flatten_getD_offs rs i p d (by omega) hp

theorem offs_add_lt : ∀ (L : List (List Nat)) (i p : Nat),
    i < L.length → p < (L.getD i []).length → offs L i + p < L.flatten.length
  | [], i, p, hi, _ => by simp at hi
  | r :: rs, 0, p, _, hp => by
    simp only [offs, Nat.zero_add, List.flatten_cons, List.length_append,
      List.getD_cons_zero] at *
    omega
  | r :: rs, i+1, p, hi, hp => by
    simp only [offs, List.flatten_cons, List.length_append, List.getD_cons_succ,
      List.length_cons] at *
    have := offs_add_lt rs i p (by omega) hp
    omega

theorem flatten_decompose : ∀ (L : List (List Nat)) (k : Nat),
    k < L.flatten.length →
    ∃ i p, i < L.length ∧ p < (L.getD i []).length ∧ k = offs L i + p
  | [], k, h => by simp at h
  | r :: rs, k, h => by
    by_cases hk : k < r.length
    · exact ⟨0, k, by simp, by simpa using hk, by simp [offs]⟩
    · have h' : k - r.length < rs.flatten.length := by
        simp only [List.flatten_cons, List.length_append] at h
        omega
      obtain ⟨i, p, hi, hp, he⟩ := flatten_decompose rs (k - r.length) h'
      refine ⟨i+1, p, by simpa using hi, by simpa using hp, ?_⟩
      simp only [offs]
      omega

theorem offs_congr : ∀ (L1 L2 : List (List Nat)),
    L1.map List.length = L2.map List.length → ∀ i, offs L1 i = offs L2 i
  | [], [], _, _ => rfl
  | [], _ :: _, h, _ => by simp at h
  | _ :: _, [], h, _ => by simp at h
  | r :: rs, r' :: rs', h, i => by
    simp only [List.map_cons, List.cons.injEq] at h
    cases i with
    | zero => rfl
    | succ i => simp only [offs, h.1, offs_congr rs rs' h.2 i]

theorem offs_set_of_le : ∀ (L : List (List Nat)) (n : Nat) (r : List Nat) (i : Nat),
    i ≤ n → offs (L.set n r) i = offs L i
  | [], _, _, _, _ => by simp
  | _ :: _, 0, _, 0, _ => rfl
  | _ :: _, 0, _, i+1, h => by omega
  | _ :: _, _+1, _, 0, _ => rfl
  | l :: ls, n+1, r, i+1, h => by
    simp only [List.set_cons_succ, offs]
    rw [offs_set_of_le ls n r i (by omega)]

theorem flatten_drop_offs : ∀ (L : List (List Nat)) (i : Nat),
    L.flatten.drop (offs L i) = (L.drop i).flatten
  | L, 0 => by rw [offs_zero]; simp
  | [], i+1 => by rw [offs_nil]; simp
  | r :: rs, i+1 => by
    simp only [offs, List.flatten_cons, List.drop_succ_cons]
    rw [List.drop_append, flatten_drop_offs rs i]

theorem mkRowind_getD (rows : List (List Nat)) (i : Nat) (h : i ≤ rows.length) :
    (mkRowind rows).getD i 0 = offs rows i := by
  have hlen : i < (List.range (rows.length + 1)).length := by
    simpa using Nat.lt_succ_of_le h
  rw [mkRowind, List.getD_eq_getElem _ _ (by simpa using hlen)]
  simp

theorem fromRows_rowindAt (ncol : Nat) (rows : List (List Nat)) (i : Nat)
    (h : i ≤ rows.length) :
    rowindAt (fromRows ncol rows) i = offs rows i := by
  simp only [rowindAt, fromRows]
  exact mkRowind_getD rows i h

theorem toRows_length (s : CRSSparsityNode) : (toRows s).length = s.nrow_ := by
  simp [toRows]

theorem toRows_getD (s : CRSSparsityNode) {i : Nat} (hi : i < s.nrow_) :
    (toRows s).getD i [] = rowSlice s i := by
  rw [toRows, List.getD_eq_getElem _ _ (by simpa using hi)]
  simp

theorem slice_fromRows (ncol : Nat) (rows : List (List Nat)) (i : Nat)
    (h : i < rows.length) :
    rowSlice (fromRows ncol rows) i = rows.getD i [] := by
  have h1 : rowindAt (fromRows ncol rows) i = offs rows i :=
    fromRows_rowindAt _ _ _ (Nat.le_of_lt h)
  have h2 : rowindAt (fromRows ncol rows) (i+1) = offs rows (i+1) :=
    fromRows_rowindAt _ _ _ h
  rw [rowSlice, h1, h2]
  have hcol : (fromRows ncol rows).col_ = rows.flatten := rfl
  rw [hcol, flatten_drop_offs, offs_succ_getD rows i h, Nat.add_sub_cancel_left,
    List.drop_eq_getElem_cons h, List.flatten_cons, List.getD_eq_getElem _ _ h]
  exact List.take_left _ _

theorem chain_le_mkRowind (rows : List (List Nat)) :
    (mkRowind rows).Chain' (· ≤ ·) := by
  rw [mkRowind]
  exact (List.chain'_map _).mpr
    ((List.chain'_range_succ _ _).mpr fun m _ => offs_le_succ rows m)

theorem fromRows_invariant (ncol : Nat) (rows : List (List Nat)) (h : RowsWF ncol rows) :
    Invariant (fromRows ncol rows) := by
  refine ⟨?_, ?_, ?_, ?_, ?_, ?_⟩
  · simp [fromRows, mkRowind]
  · rw [fromRows_rowindAt _ _ _ (Nat.zero_le _), offs_zero]
  · rw [show (fromRows ncol rows).nrow_ = rows.length from rfl,
      fromRows_rowindAt _ _ _ (Nat.le_refl _), offs_length_eq]
    rfl
  · exact chain_le_mkRowind rows
  · intro i hi
    have hi' : i < rows.length := hi
    rw [slice_fromRows _ _ _ hi', List.getD_eq_getElem _ _ hi']
    exact (h _ (List.getElem_mem hi')).1
  · intro c hc
    have hc' : c ∈ rows.flatten := hc
    obtain ⟨r, hr, hcr⟩ := List.mem_flatten.mp hc'
    exact (h r hr).2 c hcr

theorem rowind_mono (s : CRSSparsityNode) (hs : Invariant s) {a b : Nat}
    (hab : a ≤ b) (hb : b ≤ s.nrow_) : rowindAt s a ≤ rowindAt s b := by
  rcases Nat.eq_or_lt_of_le hab with rfl | hlt
  · exact Nat.le_refl _
  · have hpw := (List.chain'_iff_pairwise).mp hs.2.2.2.1
    have hb' : b < s.rowind_.length := by rw [hs.1]; omega
    have ha' : a < s.rowind_.length := by rw [hs.1]; omega
    have := List.pairwise_iff_getElem.mp hpw a b ha' hb' hlt
    rw [rowindAt, rowindAt, List.getD_eq_getElem _ _ ha', List.getD_eq_getElem _ _ hb']
    exact this

theorem slice_length (s : CRSSparsityNode) (hs : Invariant s) {i : Nat}
    (hi : i < s.nrow_) :
    (rowSlice s i).length = rowindAt s (i+1) - rowindAt s i := by
  have h1 : rowindAt s (i+1) ≤ s.col_.length := by
    rw [← hs.2.2.1]
    exact rowind_mono s hs hi (Nat.le_refl _)
  have h2 : rowindAt s i ≤ rowindAt s (i+1) :=
    rowind_mono s hs (Nat.le_succ i) hi
  rw [rowSlice, List.length_take, List.length_drop]
  omega

theorem rowind_eq_offs (s : CRSSparsityNode) (hs : Invariant s) :
    ∀ i, i ≤ s.nrow_ → rowindAt s i = offs (toRows s) i := by
  intro i
  induction i with
  | zero => intro _; rw [hs.2.1, offs_zero]
  | succ n ih =>
    intro h
    have hn : n < s.nrow_ := h
    have hlen : n < (toRows s).length := by rw [toRows_length]; omega
    rw [offs_succ_getD _ _ hlen, ← ih (Nat.le_of_lt hn), toRows_getD s hn,
      slice_length s hs hn]
    have := rowind_mono s hs (show n ≤ n + 1 by omega) h
    omega

theorem slice_getD (s : CRSSparsityNode) {i p : Nat}
    (hp : p < (rowSlice s i).length) (d : Nat) :
    (rowSlice s i).getD p d = s.col_.getD (rowindAt s i + p) d := by
  have hp' : p < (rowSlice s i).length := hp
  rw [rowSlice, List.length_take, List.length_drop] at hp'
  have hp2 : rowindAt s i + p < s.col_.length := by omega
  rw [List.getD_eq_getElem _ _ hp, List.getD_eq_getElem _ _ hp2]
  simp only [rowSlice]
  rw [List.getElem_take, List.getElem_drop]

theorem col_eq_flatten (s : CRSSparsityNode) (hs : Invariant s) :
    s.col_ = (toRows s).flatten := by
  have hlen : (toRows s).flatten.length = s.col_.length := by
    rw [← offs_length_eq, toRows_length, ← rowind_eq_offs s hs s.nrow_ (Nat.le_refl _),
      hs.2.2.1]
  apply List.ext_getElem hlen.symm
  intro k hk1 hk2
  obtain ⟨i, p, hi, hp, hke⟩ := flatten_decompose _ k hk2
  have hi' : i < s.nrow_ := by rwa [toRows_length] at hi
  rw [toRows_getD s hi'] at hp
  have h1 : (toRows s).flatten.getD k 0 = (rowSlice s i).getD p 0 := by
    rw [hke, flatten_getD_offs _ _ _ _ hi (by rwa [toRows_getD s hi']), toRows_getD s hi']
  have h2 : s.col_.getD k 0 = (rowSlice s i).getD p 0 := by
    rw [hke, ← rowind_eq_offs s hs i (Nat.le_of_lt hi'), ← slice_getD s hp 0]
  rw [← List.getD_eq_getElem _ 0 hk1, ← List.getD_eq_getElem _ 0 hk2, h1, h2]

theorem slice_subset_col (s : CRSSparsityNode) (i : Nat) :
    ∀ x ∈ rowSlice s i, x ∈ s.col_ := by
  intro x hx
  rw [rowSlice] at hx
  exact List.drop_subset _ _ (List.take_subset _ _ hx)

theorem getRow_blocks_len (s : CRSSparsityNode) (hs : Invariant s) :
    ((List.range s.nrow_).map
        (fun i => List.replicate (rowindAt s (i+1) - rowindAt s i) i)).map List.length
      = (toRows s).map List.length := by
  apply List.ext_getElem
  · simp [toRows]
  · intro k h1 h2
    have hk : k < s.nrow_ := by simpa using h1
    simp only [List.getElem_map, List.getElem_range, List.length_replicate, toRows]
    exact (slice_length s hs hk).symm

theorem replicate_blocks_getD (f : Nat → Nat) (n : Nat) {i p : Nat}
    (hi : i < n) (hp : p < f i) :
    (((List.range n).map (fun t => List.replicate (f t) t)).flatten).getD
      (offs ((List.range n).map (fun t => List.replicate (f t) t)) i + p) 0 = i := by
  have hiB : i < ((List.range n).map (fun t => List.replicate (f t) t)).length := by
    simpa using hi
  have hgdB : ((List.range n).map (fun t => List.replicate (f t) t)).getD i []
      = List.replicate (f i) i := by
    rw [List.getD_eq_getElem _ _ hiB]
    simp
  have hpB : p < (((List.range n).map (fun t => List.replicate (f t) t)).getD i []).length := by
    rw [hgdB, List.length_replicate]
    exact hp
  rw [flatten_getD_offs _ _ _ _ hiB hpB, hgdB,
    List.getD_eq_getElem _ _ (by simpa using hp)]
  simp

theorem getRow_getD (s : CRSSparsityNode) (hs : Invariant s) {i p : Nat}
    (hi : i < s.nrow_) (hp : p < (rowSlice s i).length) :
    (getRow s).getD (rowindAt s i + p) 0 = i := by
  have hoffs := offs_congr _ _ (getRow_blocks_len s hs) i
  have hp' : p < rowindAt s (i+1) - rowindAt s i := by
    rw [← slice_length s hs hi]
    exact hp
  rw [getRow, rowind_eq_offs s hs i (Nat.le_of_lt hi), ← hoffs]
  exact replicate_blocks_getD (fun t => rowindAt s (t+1) - rowindAt s t) s.nrow_ hi hp'

theorem getRow_length (s : CRSSparsityNode) (hs : Invariant s) :
    (getRow s).length = s.col_.length := by
  rw [getRow, List.length_flatten, getRow_blocks_len s hs, ← List.length_flatten,
    ← col_eq_flatten s hs]

theorem nz_correspond (s : CRSSparsityNode) (hs : Invariant s) (i j : Nat) :
    (∃ k, k < s.col_.length ∧ s.col_.getD k 0 = j ∧ (getRow s).getD k 0 = i) ↔
      isNZ s i j := by
  constructor
  · rintro ⟨k, hk, hcol, hrow⟩
    have hk' : k < (toRows s).flatten.length := by
      rw [← col_eq_flatten s hs]
      exact hk
    obtain ⟨i', p, hi, hp, hke⟩ := flatten_decompose _ k hk'
    have hi' : i' < s.nrow_ := by rwa [toRows_length] at hi
    rw [toRows_getD s hi'] at hp
    have hoffs : offs (toRows s) i' = rowindAt s i' :=
      (rowind_eq_offs s hs i' (Nat.le_of_lt hi')).symm
    have hke' : k = rowindAt s i' + p := by rw [hke, hoffs]
    have hrow' : (getRow s).getD k 0 = i' := by
      rw [hke']
      exact getRow_getD s hs hi' hp
    have hii : i = i' := by rw [← hrow]; exact hrow'
    subst hii
    refine ⟨hi', ?_⟩
    have hcol' : (rowSlice s i).getD p 0 = j := by
      rw [slice_getD s hp 0, ← hke']
      exact hcol
    rw [← hcol', List.getD_eq_getElem _ _ hp]
    exact List.getElem_mem hp
  · rintro ⟨hi, hj⟩
    obtain ⟨p, hp, hpe⟩ := List.mem_iff_getElem.mp hj
    refine ⟨rowindAt s i + p, ?_, ?_, ?_⟩
    · have := offs_add_lt (toRows s) i p (by rwa [toRows_length])
        (by rwa [toRows_getD s hi])
      rw [← rowind_eq_offs s hs i (Nat.le_of_lt hi)] at this
      rwa [← col_eq_flatten s hs] at this
    · rw [← slice_getD s hp 0, List.getD_eq_getElem _ _ hp]
      exact hpe
    · exact getRow_getD s hs hi hp

theorem toRows_WF (s : CRSSparsityNode) (hs : Invariant s) : RowsWF s.ncol_ (toRows s) := by
  intro r hr
  rw [toRows] at hr
  obtain ⟨i, hi, rfl⟩ := List.mem_map.mp hr
  exact ⟨hs.2.2.2.2.1 i (List.mem_range.mp hi),
    fun c hc => hs.2.2.2.2.2 c (slice_subset_col s i c hc)⟩

theorem chain_lt_filter (l : List Nat) (p : Nat → Bool) (h : l.Chain' (· < ·)) :
    (l.filter p).Chain' (· < ·) := by
  rw [List.chain'_iff_pairwise] at h ⊢
  exact List.Pairwise.sublist (List.filter_sublist l) h

theorem resize_invariant (s : CRSSparsityNode) (hs : Invariant s) (nrow ncol : Nat) :
    Invariant (resize s nrow ncol) := by
  apply fromRows_invariant
  intro r hr
  obtain ⟨r0, hr0, rfl⟩ := List.mem_map.mp hr
  constructor
  · apply chain_lt_filter
    rw [padTo] at hr0
    rcases List.mem_append.mp hr0 with h0 | h0
    · exact (toRows_WF s hs r0 (List.take_subset _ _ h0)).1
    · rw [List.eq_of_mem_replicate h0]
      simp
  · intro c hc
    have := List.of_mem_filter hc
    simpa using this

theorem getNZ_invariant (s : CRSSparsityNode) (hs : Invariant s) {i j k : Nat}
    {t : CRSSparsityNode} (h : getNZ s i j = some (k, t)) : Invariant t := by
  rw [getNZ] at h
  by_cases hb : i < s.nrow_ ∧ j < s.ncol_
  · rw [if_pos hb] at h
    simp only [Option.some.injEq, Prod.mk.injEq] at h
    obtain ⟨-, ht⟩ := h
    subst ht
    apply fromRows_invariant
    intro r hr
    rcases List.mem_or_eq_of_mem_set hr with hr' | rfl
    · exact toRows_WF s hs r hr'
    · refine ⟨insertCol_chain j _ (hs.2.2.2.2.1 i hb.1), ?_⟩
      intro c hc
      rcases mem_insertCol j c _ hc with rfl | hc'
      · exact hb.2
      · exact hs.2.2.2.2.2 c (slice_subset_col s i c hc')
  · rw [if_neg hb] at h
    exact absurd h (by simp)

theorem applyOp_invariant (s : CRSSparsityNode) (hs : Invariant s) (op : SpOp) :
    Invariant (applyOp s op) := by
  cases op with
  | resizeOp n m => exact resize_invariant s hs n m
  | insertOp i j =>
    rcases h : getNZ s i j with _ | ⟨k, t⟩
    · simp only [applyOp, h]
      exact hs
    · simp only [applyOp, h]
      exact getNZ_invariant s hs h

theorem applyOps_invariant (ops : List SpOp) : ∀ s : CRSSparsityNode, Invariant s →
    Invariant (applyOps s ops) := by
  induction ops with
  | nil => exact fun s hs => hs
  | cons op rest ih =>
    intro s hs
    rw [applyOps, List.foldl_cons]
    exact ih _ (applyOp_invariant s hs op)

theorem getD_set_ne {α : Type} (l : List α) (a c : Nat) (x d : α) (h : a ≠ c) :
    (l.set a x).getD c d = l.getD c d := by
  rw [List.getD_eq_getElem?_getD, List.getElem?_set_ne h, ← List.getD_eq_getElem?_getD]

theorem getD_set_eq {α : Type} (l : List α) (a : Nat) (x d : α) (h : a < l.length) :
    (l.set a x).getD a d = x := by
  rw [List.getD_eq_getElem _ _ (by simpa using h)]
  simp

theorem bucketFold_length (col : Nat → Nat) :
    ∀ (l : List Nat) (bs : List (List Nat)),
    (l.foldl (fun acc k => acc.set (col k) (acc.getD (col k) [] ++ [k])) bs).length
      = bs.length
  | [], _ => rfl
  | k :: ks, bs => by
    rw [List.foldl_cons, bucketFold_length col ks _]
    simp

theorem bucketFold_getD (col : Nat → Nat) (ncol : Nat) : ∀ (n : Nat),
    (∀ k, k < n → col k < ncol) → ∀ c,
    ((List.range n).foldl (fun acc k => acc.set (col k) (acc.getD (col k) [] ++ [k]))
        (List.replicate ncol [])).getD c []
      = (List.range n).filter (fun k => decide (col k = c)) := by
  intro n
  induction n with
  | zero =>
    intro _ c
    simp only [List.range_zero, List.foldl_nil, List.filter_nil]
    rcases Nat.lt_or_ge c ncol with h | h
    · rw [List.getD_eq_getElem _ _ (by simpa using h)]
      simp
    · rw [List.getD_eq_default _ _ (by simpa using h)]
  | succ n ih =>
    intro hcol c
    have ih' := ih (fun k hk => hcol k (Nat.lt_succ_of_lt hk))
    rw [List.range_succ, List.foldl_append, List.foldl_cons, List.foldl_nil,
      List.filter_append]
    have hlen : ((List.range n).foldl
        (fun acc k => acc.set (col k) (acc.getD (col k) [] ++ [k]))
        (List.replicate ncol [])).length = ncol := by
      rw [bucketFold_length, List.length_replicate]
    by_cases hc : col n = c
    · rw [← hc]
      rw [getD_set_eq _ _ _ _ (by rw [hlen]; exact hcol n (Nat.lt_succ_self n))]
      rw [ih' (col n)]
      simp
    · rw [getD_set_ne _ _ _ _ _ hc, ih' c]
      have : (List.filter (fun k => decide (col k = c)) [n]) = [] := by
        simp [hc]
      rw [this, List.append_nil]

theorem buckets_eq (s : CRSSparsityNode) (hs : Invariant s) :
    (bucketSort s).1 = (List.range s.ncol_).map
      (fun c => (List.range s.col_.length).filter
        (fun k => decide (s.col_.getD k 0 = c))) := by
  have hcol : ∀ k, k < s.col_.length → s.col_.getD k 0 < s.ncol_ := by
    intro k hk
    rw [List.getD_eq_getElem _ _ hk]
    exact hs.2.2.2.2.2 _ (List.getElem_mem hk)
  have hlen : (bucketSort s).1.length = s.ncol_ := by
    simp only [bucketSort]
    rw [bucketFold_length, List.length_replicate]
  apply List.ext_getElem
  · rw [hlen]
    simp
  · intro c h1 h2
    have hc : c < s.ncol_ := by rwa [hlen] at h1
    rw [← List.getD_eq_getElem _ [] h1]
    show (bucketSort s).1.getD c [] = _
    simp only [bucketSort]
    rw [bucketFold_getD _ _ _ hcol c]
    simp

theorem fiber_perm (f : Nat → Nat) : ∀ (cs : List Nat) (l : List Nat), cs.Nodup →
    (∀ k ∈ l, f k ∈ cs) →
    List.Perm ((cs.map (fun c => l.filter (fun k => decide (f k = c)))).flatten) l
  | [], l, _, hmem => by
    have : l = [] := by
      cases l with
      | nil => rfl
      | cons a as => exact absurd (hmem a (List.mem_cons_self a as)) (by simp)
    simp [this]
  | c :: cs', l, hnd, hmem => by
    rw [List.map_cons, List.flatten_cons]
    have hnd' := List.nodup_cons.mp hnd
    have hstep : ∀ c' ∈ cs', l.filter (fun k => decide (f k = c'))
        = (l.filter (fun k => !decide (f k = c))).filter (fun k => decide (f k = c')) := by
      intro c' hc'
      have hcc : c' ≠ c := fun he => hnd'.1 (he ▸ hc')
      rw [List.filter_filter]
      apply List.filter_congr
      intro x _
      by_cases hfx : f x = c'
      · simp [hfx, hcc]
      · simp [hfx]
    have hmem' : ∀ k ∈ l.filter (fun k => !decide (f k = c)), f k ∈ cs' := by
      intro k hk
      have h1 : f k ∈ c :: cs' := hmem k (List.mem_of_mem_filter hk)
      have h2 : ¬ (f k = c) := by simpa using List.of_mem_filter hk
      rcases List.mem_cons.mp h1 with he | hm
      · exact absurd he h2
      · exact hm
    have hcongr : cs'.map (fun c' => l.filter (fun k => decide (f k = c')))
        = cs'.map (fun c' => (l.filter (fun k => !decide (f k = c))).filter
            (fun k => decide (f k = c'))) :=
      List.map_congr_left hstep
    rw [hcongr]
    have hrec := fiber_perm f cs' (l.filter (fun k => !decide (f k = c))) hnd'.2 hmem'
    exact List.Perm.trans (List.Perm.append_left _ hrec) (List.filter_append_perm _ l)

theorem mapping_perm (s : CRSSparsityNode) (hs : Invariant s) :
    List.Perm (transpose s).2 (List.range s.col_.length) := by
  have hcol : ∀ k ∈ List.range s.col_.length,
      s.col_.getD k 0 ∈ List.range s.ncol_ := by
    intro k hk
    rw [List.mem_range] at hk
    rw [List.mem_range, List.getD_eq_getElem _ _ hk]
    exact hs.2.2.2.2.2 _ (List.getElem_mem hk)
  have hfib := fiber_perm (fun k => s.col_.getD k 0) (List.range s.ncol_)
    (List.range s.col_.length) (List.nodup_range _) hcol
  show (bucketSort s).1.flatten.Perm _
  rw [buckets_eq s hs]
  exact hfib

theorem bucketSort_length (s : CRSSparsityNode) : (bucketSort s).1.length = s.ncol_ := by
  simp only [bucketSort]
  rw [bucketFold_length, List.length_replicate]

theorem transpose_nrow (s : CRSSparsityNode) : (transpose s).1.nrow_ = s.ncol_ := by
  show ((bucketSort s).1.map _).length = _
  rw [List.length_map, bucketSort_length]

theorem transpose_ncol (s : CRSSparsityNode) : (transpose s).1.ncol_ = s.nrow_ := rfl

theorem transpose_mapping_length (s : CRSSparsityNode) (hs : Invariant s) :
    (transpose s).2.length = s.col_.length := by
  rw [List.Perm.length_eq (mapping_perm s hs), List.length_range]

theorem transpose_rows_len (s : CRSSparsityNode) :
    ((bucketSort s).1.map
        (fun b => b.map (fun k => (bucketSort s).2.getD k 0))).map List.length
      = (bucketSort s).1.map List.length := by
  rw [List.map_map]
  apply List.map_congr_left
  intro b _
  simp

theorem transpose_size (s : CRSSparsityNode) (hs : Invariant s) :
    (transpose s).1.col_.length = s.col_.length := by
  show ((bucketSort s).1.map
      (fun b => b.map (fun k => (bucketSort s).2.getD k 0))).flatten.length = _
  rw [List.length_flatten, transpose_rows_len, ← List.length_flatten]
  exact transpose_mapping_length s hs

theorem trows_getD (s : CRSSparsityNode) {j : Nat} (hj : j < (bucketSort s).1.length) :
    ((bucketSort s).1.map (fun b => b.map (fun k => (bucketSort s).2.getD k 0))).getD j []
      = ((bucketSort s).1.getD j []).map (fun k => (bucketSort s).2.getD k 0) := by
  rw [List.getD_eq_getElem _ _ (by simpa using hj), List.getElem_map,
    ← List.getD_eq_getElem _ _ hj]

theorem mem_bucket (s : CRSSparsityNode) (hs : Invariant s) {j k : Nat}
    (hj : j < s.ncol_) :
    k ∈ (bucketSort s).1.getD j [] ↔ (k < s.col_.length ∧ s.col_.getD k 0 = j) := by
  rw [buckets_eq s hs]
  rw [List.getD_eq_getElem _ _ (by simpa using hj)]
  simp [List.mem_filter, List.mem_range]

theorem transpose_slice (s : CRSSparsityNode) {j : Nat}
    (hj : j < s.ncol_) :
    rowSlice (transpose s).1 j
      = ((bucketSort s).1.getD j []).map (fun k => (getRow s).getD k 0) := by
  show rowSlice (fromRows s.nrow_ ((bucketSort s).1.map
      (fun b => b.map (fun k => (bucketSort s).2.getD k 0)))) j = _
  have hjl : j < (bucketSort s).1.length := by rw [bucketSort_length]; exact hj
  rw [slice_fromRows _ _ _ (by rw [List.length_map, bucketSort_length]; exact hj),
    trows_getD s hjl]
  rfl

theorem transpose_isNZ (s : CRSSparsityNode) (hs : Invariant s) (i j : Nat) :
    isNZ (transpose s).1 j i ↔ isNZ s i j := by
  constructor
  · rintro ⟨hj, hmem⟩
    have hj' : j < s.ncol_ := by rwa [transpose_nrow] at hj
    rw [transpose_slice s hj'] at hmem
    obtain ⟨k, hk, rfl⟩ := List.mem_map.mp hmem
    rw [mem_bucket s hs hj'] at hk
    exact (nz_correspond s hs _ j).mp ⟨k, hk.1, hk.2, rfl⟩
  · intro hnz
    obtain ⟨k, hk, hcol, hrow⟩ := (nz_correspond s hs i j).mpr hnz
    have hj' : j < s.ncol_ := by
      rw [← hcol, List.getD_eq_getElem _ _ hk]
      exact hs.2.2.2.2.2 _ (List.getElem_mem hk)
    refine ⟨by rwa [transpose_nrow], ?_⟩
    rw [transpose_slice s hj']
    refine List.mem_map.mpr ⟨k, ?_, hrow⟩
    rw [mem_bucket s hs hj']
    exact ⟨hk, hcol⟩

theorem fromRows_span (ncol : Nat) (rows : List (List Nat)) {t : Nat}
    (ht : t < rows.length) :
    rowindAt (fromRows ncol rows) (t+1) - rowindAt (fromRows ncol rows) t
      = (rows.getD t []).length := by
  rw [fromRows_rowindAt _ _ _ ht, fromRows_rowindAt _ _ _ (Nat.le_of_lt ht),
    offs_succ_getD _ _ ht]
  omega

theorem fromRows_blocks_len (ncol : Nat) (rows : List (List Nat)) :
    ((List.range (fromRows ncol rows).nrow_).map
        (fun t => List.replicate (rowindAt (fromRows ncol rows) (t+1)
          - rowindAt (fromRows ncol rows) t) t)).map List.length
      = rows.map List.length := by
  apply List.ext_getElem
  · simp [fromRows]
  · intro t h1 h2
    have ht : t < rows.length := by simpa [fromRows] using h1
    simp only [List.getElem_map, List.getElem_range, List.length_replicate]
    rw [fromRows_span ncol rows ht, List.getD_eq_getElem _ _ ht]

theorem getRow_fromRows_getD (ncol : Nat) (rows : List (List Nat)) {i p : Nat}
    (hi : i < rows.length) (hp : p < (rows.getD i []).length) :
    (getRow (fromRows ncol rows)).getD (offs rows i + p) 0 = i := by
  have hoffs := offs_congr _ _ (fromRows_blocks_len ncol rows) i
  rw [getRow, ← hoffs]
  have hi' : i < (fromRows ncol rows).nrow_ := hi
  exact replicate_blocks_getD
    (fun t => rowindAt (fromRows ncol rows) (t+1) - rowindAt (fromRows ncol rows) t)
    (fromRows ncol rows).nrow_ hi'
    (by
      show p < rowindAt (fromRows ncol rows) (i+1) - rowindAt (fromRows ncol rows) i
      rw [fromRows_span ncol rows hi]
      exact hp)

theorem transpose_entries (s : CRSSparsityNode) (hs : Invariant s) {q : Nat}
    (hq : q < s.col_.length) :
    (transpose s).2.getD q 0 < s.col_.length ∧
    s.col_.getD ((transpose s).2.getD q 0) 0 = (getRow (transpose s).1).getD q 0 ∧
    (transpose s).1.col_.getD q 0 = (getRow s).getD ((transpose s).2.getD q 0) 0 := by
  have hq' : q < (bucketSort s).1.flatten.length := by
    rw [show (bucketSort s).1.flatten = (transpose s).2 from rfl,
      transpose_mapping_length s hs]
    exact hq
  obtain ⟨j, p, hj, hp, hqe⟩ := flatten_decompose _ q hq'
  have hj' : j < s.ncol_ := by rwa [bucketSort_length] at hj
  have hk0 : (transpose s).2.getD q 0 = ((bucketSort s).1.getD j []).getD p 0 := by
    show (bucketSort s).1.flatten.getD q 0 = _
    rw [hqe, flatten_getD_offs _ _ _ _ hj hp]
  have hk0mem : ((bucketSort s).1.getD j []).getD p 0 ∈ (bucketSort s).1.getD j [] := by
    rw [List.getD_eq_getElem _ _ hp]
    exact List.getElem_mem hp
  have hk0b := (mem_bucket s hs hj').mp hk0mem
  have htrows_len : j < ((bucketSort s).1.map
      (fun b => b.map (fun k => (bucketSort s).2.getD k 0))).length := by
    rw [List.length_map]
    exact hj
  have htrows_getD : ((bucketSort s).1.map
        (fun b => b.map (fun k => (bucketSort s).2.getD k 0))).getD j []
      = ((bucketSort s).1.getD j []).map (fun k => (bucketSort s).2.getD k 0) := by
    rw [List.getD_eq_getElem _ _ htrows_len, List.getElem_map,
      ← List.getD_eq_getElem _ _ hj]
  have hp' : p < (((bucketSort s).1.map
      (fun b => b.map (fun k => (bucketSort s).2.getD k 0))).getD j []).length := by
    rw [htrows_getD, List.length_map]
    exact hp
  have hoffs : offs ((bucketSort s).1.map
      (fun b => b.map (fun k => (bucketSort s).2.getD k 0))) j = offs (bucketSort s).1 j :=
    offs_congr _ _ (transpose_rows_len s) j
  refine ⟨?_, ?_, ?_⟩
  · rw [hk0]
    exact hk0b.1
  · rw [hk0, hk0b.2]
    have := getRow_fromRows_getD s.nrow_
      ((bucketSort s).1.map (fun b => b.map (fun k => (bucketSort s).2.getD k 0)))
      htrows_len hp'
    rw [hoffs, ← hqe] at this
    exact this.symm
  · rw [hk0]
    show ((bucketSort s).1.map
        (fun b => b.map (fun k => (bucketSort s).2.getD k 0))).flatten.getD q 0 = _
    rw [hqe, ← hoffs, flatten_getD_offs _ _ _ _ htrows_len hp', htrows_getD]
    rw [List.getD_eq_getElem _ _ (by rwa [List.length_map]),
      List.getElem_map, ← List.getD_eq_getElem _ 0 hp]
    rfl

theorem getRow_sorted (s : CRSSparsityNode) : (getRow s).Pairwise (· ≤ ·) := by
  rw [getRow, List.pairwise_flatten]
  constructor
  · intro l hl
    obtain ⟨i, _, rfl⟩ := List.mem_map.mp hl
    exact List.pairwise_replicate.mpr (Or.inr (Nat.le_refl i))
  · rw [List.pairwise_map]
    refine List.Pairwise.imp ?_ (List.pairwise_lt_range s.nrow_)
    intro a b hab x hx y hy
    rw [List.eq_of_mem_replicate hx, List.eq_of_mem_replicate hy]
    exact Nat.le_of_lt hab

theorem getRow_mono_getD (s : CRSSparsityNode) (hs : Invariant s) {a b : Nat}
    (hab : a < b) (hb : b < s.col_.length) :
    (getRow s).getD a 0 ≤ (getRow s).getD b 0 := by
  have hlen : (getRow s).length = s.col_.length := getRow_length s hs
  have ha' : a < (getRow s).length := by omega
  have hb' : b < (getRow s).length := by omega
  rw [List.getD_eq_getElem _ _ ha', List.getD_eq_getElem _ _ hb']
  exact List.pairwise_iff_getElem.mp (getRow_sorted s) a b ha' hb' hab

theorem bucket_pairwise_lt (s : CRSSparsityNode) (hs : Invariant s) {c : Nat}
    (hc : c < s.ncol_) : ((bucketSort s).1.getD c []).Pairwise (· < ·) := by
  rw [buckets_eq s hs, List.getD_eq_getElem _ _ (by simpa using hc)]
  simp only [List.getElem_map, List.getElem_range]
  exact List.Pairwise.sublist (List.filter_sublist _) (List.pairwise_lt_range _)

theorem bucket_row_order (s : CRSSparsityNode) (hs : Invariant s) {c : Nat}
    (hc : c < s.ncol_) :
    (((bucketSort s).1.getD c []).map
        (fun k => (bucketSort s).2.getD k 0)).Chain' (· ≤ ·) := by
  rw [List.chain'_iff_pairwise, List.pairwise_map]
  refine List.Pairwise.imp_of_mem ?_ (bucket_pairwise_lt s hs hc)
  intro k k' hk hk' hlt
  have h2 := (mem_bucket s hs hc).mp hk'
  exact getRow_mono_getD s hs hlt h2.1

theorem padTo_length (n : Nat) (rows : List (List Nat)) : (padTo n rows).length = n := by
  rw [padTo, List.length_append, List.length_take, List.length_replicate]
  omega

theorem map_getD_list (f : List Nat → List Nat) (L : List (List Nat)) {i : Nat}
    (hi : i < L.length) : (L.map f).getD i [] = f (L.getD i []) := by
  rw [List.getD_eq_getElem _ _ (by simpa using hi), List.getElem_map,
    ← List.getD_eq_getElem _ _ hi]

theorem padTo_getD (n : Nat) (rows : List (List Nat)) {i : Nat} (hi : i < n) :
    (padTo n rows).getD i []
      = if i < rows.length then rows.getD i [] else [] := by
  rw [padTo]
  by_cases h : i < rows.length
  · rw [if_pos h, List.getD_append _ _ _ _ (by rw [List.length_take]; omega)]
    rw [List.getD_eq_getElem _ _ (by rw [List.length_take]; omega), List.getElem_take,
      ← List.getD_eq_getElem _ _ h]
  · rw [if_neg h, List.getD_append_right _ _ _ _ (by rw [List.length_take]; omega)]
    rcases Nat.lt_or_ge (i - (rows.take n).length) (n - rows.length) with hr | hr
    · rw [List.getD_eq_getElem _ _ (by simpa using hr)]
      simp
    · rw [List.getD_eq_default _ _ (by simpa using hr)]

theorem resize_nrow (s : CRSSparsityNode) (nrow ncol : Nat) :
    (resize s nrow ncol).nrow_ = nrow := by
  show ((padTo nrow (toRows s)).map (List.filter (fun c => decide (c < ncol)))).length = nrow
  rw [List.length_map, padTo_length]

theorem resize_isNZ (s : CRSSparsityNode) (nrow ncol i j : Nat) :
    isNZ (resize s nrow ncol) i j ↔ (isNZ s i j ∧ i < nrow ∧ j < ncol) := by
  constructor
  · rintro ⟨hi, hj⟩
    have hi' : i < nrow := by rwa [resize_nrow] at hi
    rw [show resize s nrow ncol = fromRows ncol ((padTo nrow (toRows s)).map
        (List.filter (fun c => decide (c < ncol)))) from rfl] at hj
    rw [slice_fromRows _ _ _ (by rw [List.length_map, padTo_length]; exact hi'),
      map_getD_list _ _ (by rw [padTo_length]; exact hi'),
      padTo_getD nrow _ hi'] at hj
    by_cases hrow : i < (toRows s).length
    · rw [if_pos hrow, List.mem_filter] at hj
      have hiN : i < s.nrow_ := by rwa [toRows_length] at hrow
      refine ⟨⟨hiN, ?_⟩, hi', by simpa using hj.2⟩
      rw [toRows_getD s hiN] at hj
      exact hj.1
    · rw [if_neg hrow] at hj
      simp at hj
  · rintro ⟨⟨hi, hj⟩, hin, hjn⟩
    refine ⟨by rw [resize_nrow]; exact hin, ?_⟩
    rw [show resize s nrow ncol = fromRows ncol ((padTo nrow (toRows s)).map
        (List.filter (fun c => decide (c < ncol)))) from rfl]
    rw [slice_fromRows _ _ _ (by rw [List.length_map, padTo_length]; exact hin),
      map_getD_list _ _ (by rw [padTo_length]; exact hin),
      padTo_getD nrow _ hin, if_pos (by rwa [toRows_length]),
      toRows_getD s hi, List.mem_filter]
    exact ⟨hj, by simpa⟩

theorem resize_rowind_last (s : CRSSparsityNode) (nrow ncol : Nat) :
    rowindAt (resize s nrow ncol) nrow = (resize s nrow ncol).col_.length := by
  have hL : ((padTo nrow (toRows s)).map
      (List.filter (fun c => decide (c < ncol)))).length = nrow := by
    rw [List.length_map, padTo_length]
  show rowindAt (fromRows ncol ((padTo nrow (toRows s)).map
      (List.filter (fun c => decide (c < ncol))))) nrow = _
  rw [fromRows_rowindAt _ _ _ (by rw [hL])]
  nth_rewrite 2 [← hL]
  rw [offs_length_eq]
  rfl

theorem getNZ_some (s : CRSSparsityNode) {i j : Nat} (hi : i < s.nrow_)
    (hj : j < s.ncol_) :
    getNZ s i j = some (rowindAt s i + insPos j (rowSlice s i),
      fromRows s.ncol_ ((toRows s).set i (insertCol j (rowSlice s i)))) := by
  rw [getNZ, if_pos ⟨hi, hj⟩]

theorem getNZ_roundtrip (s : CRSSparsityNode) (hs : Invariant s) {i j k : Nat}
    {t : CRSSparsityNode} (h : getNZ s i j = some (k, t)) :
    getNZ_const t i j = (k : Int) ∧ colAt t k = some j := by
  rw [getNZ] at h
  by_cases hb : i < s.nrow_ ∧ j < s.ncol_
  swap
  · rw [if_neg hb] at h
    exact absurd h (by simp)
  rw [if_pos hb] at h
  simp only [Option.some.injEq, Prod.mk.injEq] at h
  obtain ⟨hk, ht⟩ := h
  subst ht
  have hlen' : ((toRows s).set i (insertCol j (rowSlice s i))).length = s.nrow_ := by
    rw [List.length_set, toRows_length]
  have hi' : i < ((toRows s).set i (insertCol j (rowSlice s i))).length := by
    rw [hlen']
    exact hb.1
  have hgd : ((toRows s).set i (insertCol j (rowSlice s i))).getD i []
      = insertCol j (rowSlice s i) :=
    getD_set_eq _ _ _ _ (by rw [toRows_length]; exact hb.1)
  have hslice : rowSlice (fromRows s.ncol_
      ((toRows s).set i (insertCol j (rowSlice s i)))) i = insertCol j (rowSlice s i) := by
    rw [slice_fromRows _ _ _ hi', hgd]
  have hstart : rowindAt (fromRows s.ncol_
      ((toRows s).set i (insertCol j (rowSlice s i)))) i = rowindAt s i := by
    rw [fromRows_rowindAt _ _ _ (Nat.le_of_lt hi'),
      offs_set_of_le _ _ _ _ (Nat.le_refl i),
      ← rowind_eq_offs s hs i (Nat.le_of_lt hb.1)]
  constructor
  · have hlook : lookupCol j (rowSlice (fromRows s.ncol_
        ((toRows s).set i (insertCol j (rowSlice s i)))) i)
        = some (insPos j (rowSlice s i)) := by
      rw [hslice, lookupCol_insertCol]
    simp only [getNZ_const, hlook]
    rw [hstart, hk]
  · have hpos : insPos j (rowSlice s i)
        < (((toRows s).set i (insertCol j (rowSlice s i))).getD i []).length := by
      rw [hgd]
      exact insPos_lt_length_insertCol j _
    have hk2 : k = offs ((toRows s).set i (insertCol j (rowSlice s i))) i
        + insPos j (rowSlice s i) := by
      rw [← hk, ← hstart, fromRows_rowindAt _ _ _ (Nat.le_of_lt hi')]
    have hkb : k < ((toRows s).set i (insertCol j (rowSlice s i))).flatten.length := by
      rw [hk2]
      exact offs_add_lt _ _ _ hi' hpos
    have hval : ((toRows s).set i (insertCol j (rowSlice s i))).flatten.getD k 0 = j := by
      rw [hk2, flatten_getD_offs _ _ _ _ hi' hpos, hgd, insertCol_getD_insPos]
    rw [colAt]
    show (((toRows s).set i (insertCol j (rowSlice s i))).flatten)[k]? = some j
    rw [List.getElem?_eq_getElem hkb, ← List.getD_eq_getElem _ 0 hkb, hval]

theorem getNZ_const_none_iff (s : CRSSparsityNode) {i j : Nat} (hi : i < s.nrow_) :
    getNZ_const s i j = -1 ↔ ¬ isNZ s i j := by
  rcases hlook : lookupCol j (rowSlice s i) with _ | p
  · simp only [getNZ_const, hlook]
    rw [lookupCol_eq_none] at hlook
    simp [isNZ, hlook, hi]
  · simp only [getNZ_const, hlook]
    have hb := lookupCol_some_bound j _ p hlook
    constructor
    · intro he
      exact absurd he (by omega)
    · intro hni
      exfalso
      apply hni
      refine ⟨hi, ?_⟩
      rw [← hb.2, List.getD_eq_getElem _ _ hb.1]
      exact List.getElem_mem _

theorem getNZ_const_found (s : CRSSparsityNode) (hs : Invariant s) {i j : Nat}
    (hi : i < s.nrow_) (hnz : isNZ s i j) :
    ∃ k : Nat, getNZ_const s i j = (k : Int) ∧ colAt s k = some j ∧
      rowindAt s i ≤ k ∧ k < rowindAt s (i+1) := by
  rcases hlook : lookupCol j (rowSlice s i) with _ | p
  · rw [lookupCol_eq_none] at hlook
    exact absurd hnz.2 hlook
  · have hb := lookupCol_some_bound j _ p hlook
    have hk : rowindAt s i + p < s.col_.length := by
      have hp' := hb.1
      rw [rowSlice, List.length_take, List.length_drop] at hp'
      omega
    refine ⟨rowindAt s i + p, by simp [getNZ_const, hlook], ?_,
      Nat.le_add_right _ _, ?_⟩
    · rw [colAt, List.getElem?_eq_getElem hk, ← List.getD_eq_getElem _ 0 hk,
        ← slice_getD s hb.1 0, hb.2]
    · have hp2 := hb.1
      rw [slice_length s hs hi] at hp2
      have h2 := rowind_mono s hs (show i ≤ i + 1 by omega) hi
      omega

theorem observe_eq_map (st : CRSStore) (h : Nat) :
    observe st h = (st.handles.getD h none).map (fun nid => st.nodes.getD nid emptyNode) := by
  rcases hob : st.handles.getD h none with _ | nid
  all_goals
    rw [List.getD_eq_getElem?_getD] at hob
    simp [observe, hob]

theorem count_two_getElem :
    ∀ (l : List (Option Nat)) (x : Option Nat) (a b : Nat), a < b →
    l[a]? = some x → l[b]? = some x → 2 ≤ l.count x
  | [], _, a, _, _, ha, _ => by simp at ha
  | c :: t, x, 0, b, hab, ha, hb => by
    have hc : c = x := by simpa using ha
    subst hc
    rw [List.count_cons_self]
    have hb' : t[b-1]? = some c := by
      rcases b with _ | b'
      · omega
      · simpa using hb
    have hmem : c ∈ t := by
      rcases List.getElem?_eq_some_iff.mp hb' with ⟨h1, h2⟩
      exact h2 ▸ List.getElem_mem h1
    have := List.count_pos_iff.mpr hmem
    omega
  | c :: t, x, a+1, b, hab, ha, hb => by
    rcases b with _ | b'
    · omega
    · have ha' : t[a]? = some x := by simpa using ha
      have hb' : t[b']? = some x := by simpa using hb
      have h1 := count_two_getElem t x a b' (by omega) ha' hb'
      have h2 : t.count x ≤ (c :: t).count x := by
        rw [List.count_cons]
        exact Nat.le_add_right _ _
      omega

theorem mutateThrough_frame (st : CRSStore) (h h' : Nat) (hwf : StoreWF st)
    (hh : h < st.handles.length) (hh' : h' < st.handles.length) (hne : h ≠ h')
    (f : CRSSparsityNode → CRSSparsityNode) :
    observe (mutateThrough st h f) h' = observe st h' := by
  rcases hob : st.handles.getD h none with _ | nid
  · simp only [mutateThrough, hob]
  · simp only [mutateThrough, hob]
    have hnid' : ∀ n : Nat, st.handles.getD h' none = some n → n < st.nodes.length := by
      intro n hn
      have hmem : st.handles.getD h' none ∈ st.handles := by
        rw [List.getD_eq_getElem _ _ hh']
        exact List.getElem_mem hh'
      have := hwf _ hmem
      rw [hn] at this
      exact this
    by_cases hrc : 1 < refCount st nid
    · rw [if_pos hrc, observe_eq_map, observe_eq_map]
      show ((st.handles.set h (some st.nodes.length)).getD h' none).map
          (fun n => (st.nodes ++ [f (st.nodes.getD nid emptyNode)]).getD n emptyNode) = _
      rw [getD_set_ne _ _ _ _ _ hne]
      rcases hob' : st.handles.getD h' none with _ | nid'
      · rfl
      · simp only [Option.map_some']
        rw [List.getD_append _ _ _ _ (hnid' nid' hob')]
    · rw [if_neg hrc, observe_eq_map, observe_eq_map]
      show (st.handles.getD h' none).map
          (fun n => (st.nodes.set nid (f (st.nodes.getD nid emptyNode))).getD n emptyNode) = _
      rcases hob' : st.handles.getD h' none with _ | nid'
      · rfl
      · simp only [Option.map_some']
        have hnn : nid ≠ nid' := by
          intro he
          subst he
          have hA : st.handles[h]? = some (some nid) := by
            rw [List.getElem?_eq_getElem hh, ← List.getD_eq_getElem _ none hh, hob]
          have hB : st.handles[h']? = some (some nid) := by
            rw [List.getElem?_eq_getElem hh', ← List.getD_eq_getElem _ none hh', hob']
          rcases Nat.lt_or_ge h h' with hlt | hge
          · exact hrc (count_two_getElem _ _ _ _ hlt hA hB)
          · exact hrc (count_two_getElem _ _ _ _ (by omega) hB hA)
        rw [getD_set_ne _ _ _ _ _ hnn]

/-- The 3x3 example pattern of spec §8: `colIndex = [0,2,1,0,1,2]`,
`rowStart = [0,2,3,6]`. -/
def exS : CRSSparsityNode := ⟨3, 3, [0, 2, 1, 0, 1, 2], [0, 2, 3, 6]⟩

/-- A 3x3 pattern holding a non-zero at `(2,2)` (and one at `(0,0)`), used for
the resize-truncation scenario of spec §8. -/
def ex3 : CRSSparsityNode := ⟨3, 3, [0, 2], [0, 1, 1, 2]⟩

/-- C1: for every sequence of `resize` / mutating-`getNZ` operations applied to
a pattern satisfying the structural invariants, after each operation (hence
after any such sequence) `rowStart` is monotonically non-decreasing,
`rowStart[0] = 0`, `rowStart[rows]` equals the length of `colIndex`, and every
row's column slice is strictly increasing. -/
theorem claim1_invariant_preservation (s : CRSSparsityNode) (hs : Invariant s)
    (ops : List SpOp) :
    (applyOps s ops).rowind_.Chain' (· ≤ ·) ∧
    rowindAt (applyOps s ops) 0 = 0 ∧
    rowindAt (applyOps s ops) (applyOps s ops).nrow_ = (applyOps s ops).col_.length ∧
    (∀ i < (applyOps s ops).nrow_, (rowSlice (applyOps s ops) i).Chain' (· < ·)) := by
  have h := applyOps_invariant ops s hs
  exact ⟨h.2.2.2.1, h.2.1, h.2.2.1, h.2.2.2.2.1⟩

/-- Witness for C1 at a concrete pattern and operation sequence. -/
theorem claim1_witness :
    Invariant exS ∧
    (applyOps exS [SpOp.insertOp 1 2, SpOp.resizeOp 2 2]).rowind_.Chain' (· ≤ ·) ∧
    rowindAt (applyOps exS [SpOp.insertOp 1 2, SpOp.resizeOp 2 2]) 0 = 0 ∧
    rowindAt (applyOps exS [SpOp.insertOp 1 2, SpOp.resizeOp 2 2])
        (applyOps exS [SpOp.insertOp 1 2, SpOp.resizeOp 2 2]).nrow_
      = (applyOps exS [SpOp.insertOp 1 2, SpOp.resizeOp 2 2]).col_.length ∧
    (rowSlice (applyOps exS [SpOp.insertOp 1 2, SpOp.resizeOp 2 2]) 0).Chain' (· < ·) :=
  ⟨by decide,
    (claim1_invariant_preservation exS (by decide) _).1,
    (claim1_invariant_preservation exS (by decide) _).2.1,
    (claim1_invariant_preservation exS (by decide) _).2.2.1,
    (claim1_invariant_preservation exS (by decide) _).2.2.2 0 (by decide)⟩

/-- C2: `transpose P` swaps the shape (`size1` and `size2` exchanged), keeps
`size` (the non-zero count), and its structural non-zeros are exactly the pairs
`(j,i)` for non-zeros `(i,j)` of `P`; `P` itself is untouched, `transpose`
being a pure function of it. -/
theorem claim2_transpose_spec (s : CRSSparsityNode) (hs : Invariant s) :
    size1 (transpose s).1 = size2 s ∧ size2 (transpose s).1 = size1 s ∧
    size (transpose s).1 = size s ∧
    (∀ i j, isNZ (transpose s).1 j i ↔ isNZ s i j) :=
  ⟨transpose_nrow s, rfl, transpose_size s hs, fun i j => transpose_isNZ s hs i j⟩

/-- Witness for C2 at the spec's 3x3 example. -/
theorem claim2_witness :
    Invariant exS ∧ size1 (transpose exS).1 = size2 exS ∧
    size2 (transpose exS).1 = size1 exS ∧ size (transpose exS).1 = size exS ∧
    (isNZ (transpose exS).1 2 0 ↔ isNZ exS 0 2) :=
  ⟨by decide,
    (claim2_transpose_spec exS (by decide)).1,
    (claim2_transpose_spec exS (by decide)).2.1,
    (claim2_transpose_spec exS (by decide)).2.2.1,
    (claim2_transpose_spec exS (by decide)).2.2.2 0 2⟩

/-- C3: the `mapping` returned by `transpose` has length `nnz` and is an exact
permutation of the linear indices `0..nnz-1`; `mapping[q]` is the original
linear index occupying new linear index `q`: the new column at `q` is the old
row of `mapping[q]` and the new row at `q` is the old column of `mapping[q]`,
so a parallel value array can be reordered by this permutation alone. -/
theorem claim3_transpose_mapping (s : CRSSparsityNode) (hs : Invariant s) :
    (transpose s).2.length = size s ∧
    List.Perm (transpose s).2 (List.range (size s)) ∧
    (∀ q, q < size s →
      (transpose s).2.getD q 0 < size s ∧
      (transpose s).1.col_.getD q 0 = (getRow s).getD ((transpose s).2.getD q 0) 0 ∧
      (getRow (transpose s).1).getD q 0 = s.col_.getD ((transpose s).2.getD q 0) 0) :=
  ⟨transpose_mapping_length s hs, mapping_perm s hs,
    fun q hq => ⟨(@transpose_entries s hs q hq).1, (@transpose_entries s hs q hq).2.2,
      ((@transpose_entries s hs q hq).2.1).symm⟩⟩

/-- Witness for C3 at the spec's 3x3 example. -/
theorem claim3_witness :
    Invariant exS ∧ (transpose exS).2.length = size exS ∧
    List.Perm (transpose exS).2 (List.range (size exS)) ∧
    (transpose exS).2.getD 1 0 < size exS ∧
    (transpose exS).1.col_.getD 1 0 = (getRow exS).getD ((transpose exS).2.getD 1 0) 0 ∧
    (getRow (transpose exS).1).getD 1 0 = exS.col_.getD ((transpose exS).2.getD 1 0) 0 :=
  ⟨by decide,
    (claim3_transpose_mapping exS (by decide)).1,
    (claim3_transpose_mapping exS (by decide)).2.1,
    ((claim3_transpose_mapping exS (by decide)).2.2 1 (by decide)).1,
    ((claim3_transpose_mapping exS (by decide)).2.2 1 (by decide)).2.1,
    ((claim3_transpose_mapping exS (by decide)).2.2 1 (by decide)).2.2⟩

/-- C4: when two handles share an `IndexNode`, a mutating operation (`resize`
or the insertion form of `getNZ`) through one handle clones first and mutates
only the private clone, so the pattern observed through the other handle is
unchanged; the read-only `getNZ` returns the store untouched (no clone). -/
theorem claim4_cow_frame (st : CRSStore) (h h' nid : Nat) (hwf : StoreWF st)
    (hh : h < st.handles.length) (hh' : h' < st.handles.length) (hne : h ≠ h')
    (_hsh : st.handles.getD h none = some nid)
    (_hsh' : st.handles.getD h' none = some nid) :
    (∀ n m, observe (store_resize st h n m) h' = observe st h') ∧
    (∀ i j, observe (store_getNZ st h i j) h' = observe st h') ∧
    (∀ i j, (store_getNZ_const st h i j).1 = st) :=
  ⟨fun _ _ => mutateThrough_frame st h h' hwf hh hh' hne _,
   fun _ _ => mutateThrough_frame st h h' hwf hh hh' hne _,
   fun _ _ => rfl⟩

/-- Witness for C4: two handles sharing one node; mutating through handle 0
leaves handle 1's view unchanged. -/
theorem claim4_witness :
    StoreWF ⟨[exS], [some 0, some 0]⟩ ∧
    observe (store_resize ⟨[exS], [some 0, some 0]⟩ 0 2 2) 1
      = observe ⟨[exS], [some 0, some 0]⟩ 1 ∧
    observe (store_getNZ ⟨[exS], [some 0, some 0]⟩ 0 1 0) 1
      = observe ⟨[exS], [some 0, some 0]⟩ 1 ∧
    (store_getNZ_const ⟨[exS], [some 0, some 0]⟩ 0 1 0).1 = ⟨[exS], [some 0, some 0]⟩ :=
  ⟨by decide,
    (claim4_cow_frame ⟨[exS], [some 0, some 0]⟩ 0 1 0 (by decide) (by decide)
      (by decide) (by decide) (by decide) (by decide)).1 2 2,
    (claim4_cow_frame ⟨[exS], [some 0, some 0]⟩ 0 1 0 (by decide) (by decide)
      (by decide) (by decide) (by decide) (by decide)).2.1 1 0,
    (claim4_cow_frame ⟨[exS], [some 0, some 0]⟩ 0 1 0 (by decide) (by decide)
      (by decide) (by decide) (by decide) (by decide)).2.2 1 0⟩

/-- C5: for valid `(i,j)`, when the mutating `getNZ` returns linear index `k`
and pattern `t`, the read-only `getNZ` on `t` returns the same `k`, and
`col(k) = j` in `t`. -/
theorem claim5_getNZ_roundtrip (s : CRSSparsityNode) (hs : Invariant s)
    (i j k : Nat) (t : CRSSparsityNode) (_hi : i < size1 s) (_hj : j < size2 s)
    (h : getNZ s i j = some (k, t)) :
    getNZ_const t i j = (k : Int) ∧ colAt t k = some j :=
  getNZ_roundtrip s hs h

/-- Witness for C5: inserting `(0,1)` into the 3x3 example returns index 1 and
the round-trip holds on the resulting pattern. -/
theorem claim5_witness :
    Invariant exS ∧ (0 : Nat) < size1 exS ∧ (1 : Nat) < size2 exS ∧
    getNZ exS 0 1 = some (1, CRSSparsityNode.mk 3 3 [0, 1, 2, 1, 0, 1, 2] [0, 3, 4, 7]) ∧
    getNZ_const (CRSSparsityNode.mk 3 3 [0, 1, 2, 1, 0, 1, 2] [0, 3, 4, 7]) 0 1 = (1 : Int) ∧
    colAt (CRSSparsityNode.mk 3 3 [0, 1, 2, 1, 0, 1, 2] [0, 3, 4, 7]) 1 = some 1 :=
  ⟨by decide, by decide, by decide, by decide,
    (claim5_getNZ_roundtrip exS (by decide) 0 1 1
      (CRSSparsityNode.mk 3 3 [0, 1, 2, 1, 0, 1, 2] [0, 3, 4, 7])
      (by decide) (by decide) (by decide)).1,
    (claim5_getNZ_roundtrip exS (by decide) 0 1 1
      (CRSSparsityNode.mk 3 3 [0, 1, 2, 1, 0, 1, 2] [0, 3, 4, 7])
      (by decide) (by decide) (by decide)).2⟩

/-- C6: for in-bounds `(i,j)`, the read-only `getNZ` returns `-1` exactly when
`(i,j)` is not a structural non-zero, and otherwise a linear index `k` lying in
row `i`'s range with `col(k) = j`; being a pure function of the pattern it
cannot mutate it. -/
theorem claim6_getNZ_const_spec (s : CRSSparsityNode) (hs : Invariant s)
    {i j : Nat} (hi : i < size1 s) (_hj : j < size2 s) :
    (getNZ_const s i j = -1 ↔ ¬ isNZ s i j) ∧
    (isNZ s i j → ∃ k : Nat, getNZ_const s i j = (k : Int) ∧ colAt s k = some j ∧
      rowindAt s i ≤ k ∧ k < rowindAt s (i+1)) :=
  ⟨getNZ_const_none_iff s hi, fun hnz => getNZ_const_found s hs hi hnz⟩

/-- Witness for C6: `(0,1)` is absent from the 3x3 example and the read-only
`getNZ` says so with `-1`. -/
theorem claim6_witness :
    Invariant exS ∧ (0 : Nat) < size1 exS ∧ (1 : Nat) < size2 exS ∧
    (getNZ_const exS 0 1 = -1 ↔ ¬ isNZ exS 0 1) ∧ getNZ_const exS 0 1 = -1 :=
  ⟨by decide, by decide, by decide,
    (claim6_getNZ_const_spec exS (by decide) (by decide) (by decide)).1, by decide⟩

/-- C7: `bucketSort` yields `cols` buckets; bucket `c` is exactly the list of
linear indices `k` with `colIndex[k] = c`, in the increasing-`k` order induced
by the single scan of the rows; within each bucket the rows are non-decreasing;
and the `rowOf` output equals `getRow()`. -/
theorem claim7_bucketSort_spec (s : CRSSparsityNode) (hs : Invariant s) :
    (bucketSort s).1.length = size2 s ∧
    (∀ c, c < size2 s → (bucketSort s).1.getD c []
      = (List.range (size s)).filter (fun k => decide (s.col_.getD k 0 = c))) ∧
    (∀ c, c < size2 s →
      (((bucketSort s).1.getD c []).map
        (fun k => (bucketSort s).2.getD k 0)).Chain' (· ≤ ·)) ∧
    (bucketSort s).2 = getRow s := by
  refine ⟨bucketSort_length s, ?_, fun c hc => bucket_row_order s hs hc, rfl⟩
  intro c hc
  rw [buckets_eq s hs, List.getD_eq_getElem _ _ (by simpa using hc)]
  simp only [List.getElem_map, List.getElem_range]
  rfl

/-- Witness for C7 at the spec's 3x3 example, bucket 0. -/
theorem claim7_witness :
    Invariant exS ∧ (bucketSort exS).1.length = size2 exS ∧
    (bucketSort exS).1.getD 0 []
      = (List.range (size exS)).filter (fun k => decide (exS.col_.getD k 0 = 0)) ∧
    (((bucketSort exS).1.getD 0 []).map
      (fun k => (bucketSort exS).2.getD k 0)).Chain' (· ≤ ·) ∧
    (bucketSort exS).2 = getRow exS :=
  ⟨by decide,
    (claim7_bucketSort_spec exS (by decide)).1,
    (claim7_bucketSort_spec exS (by decide)).2.1 0 (by decide),
    (claim7_bucketSort_spec exS (by decide)).2.2.1 0 (by decide),
    (claim7_bucketSort_spec exS (by decide)).2.2.2⟩

/-- C8: `resize` keeps exactly the non-zeros whose row and column fit the new
bounds (dropping the rest) and renumbers `rowStart`/`colIndex`, the final row
offset always equalling the new `nnz`; concretely, the 3x3 pattern `ex3` with
a non-zero at `(2,2)`, resized to 2x2, loses that non-zero, `size()` drops by
one, and the new `rowStart[2]` equals the new `nnz`. -/
theorem claim8_resize_truncation (s : CRSSparsityNode) (nrow ncol : Nat) :
    (∀ i j, isNZ (resize s nrow ncol) i j ↔ (isNZ s i j ∧ i < nrow ∧ j < ncol)) ∧
    rowindAt (resize s nrow ncol) nrow = size (resize s nrow ncol) ∧
    (isNZ ex3 2 2 ∧ ¬ isNZ (resize ex3 2 2) 2 2 ∧
      size (resize ex3 2 2) = size ex3 - 1 ∧
      rowindAt (resize ex3 2 2) 2 = size (resize ex3 2 2)) :=
  ⟨fun i j => resize_isNZ s nrow ncol i j, resize_rowind_last s nrow ncol,
    by decide, by decide, by decide, by decide⟩

/-- C9: under the structural invariants, the row-offset array returned by
`rowind()` has length `size1() + 1`, starts at 0 and ends at `size()`. -/
theorem claim9_rowind_spec (s : CRSSparsityNode) (hs : Invariant s) :
    (rowindList s).length = size1 s + 1 ∧ (rowindList s).getD 0 0 = 0 ∧
    (rowindList s).getD (size1 s) 0 = size s :=
  ⟨hs.1, hs.2.1, hs.2.2.1⟩

/-- Witness for C9 at the spec's 3x3 example. -/
theorem claim9_witness :
    Invariant exS ∧ (rowindList exS).length = size1 exS + 1 ∧
    (rowindList exS).getD 0 0 = 0 ∧ (rowindList exS).getD (size1 exS) 0 = size exS :=
  ⟨by decide,
    (claim9_rowind_spec exS (by decide)).1,
    (claim9_rowind_spec exS (by decide)).2.1,
    (claim9_rowind_spec exS (by decide)).2.2⟩

/-- C10: a default-constructed `CRSSparsity` is a null handle referencing no
node: `checkNode` is `false` on it, `true` on a handle built by the
sparse/dense constructor, and `true` exactly when the handle's underlying
shared object is a `CRSSparsityNode`. -/
theorem claim10_checkNode (st : CRSStore) :
    checkNode (newNullHandle st).1 (newNullHandle st).2 = false ∧
    (∀ nrow ncol d, checkNode (newPatternHandle st nrow ncol d).1
        (newPatternHandle st nrow ncol d).2 = true) ∧
    (∀ h, checkNode st h = true ↔ ∃ nd, observe st h = some nd) := by
  refine ⟨?_, ?_, ?_⟩
  · rw [checkNode, observe_eq_map]
    show (((st.handles ++ [none]).getD st.handles.length none).map
      (fun nid => st.nodes.getD nid emptyNode)).isSome = false
    rw [List.getD_append_right _ _ _ _ (Nat.le_refl _), Nat.sub_self]
    rfl
  · intro nrow ncol d
    rw [checkNode, observe_eq_map]
    show (((st.handles ++ [some st.nodes.length]).getD st.handles.length none).map
      (fun nid => (st.nodes ++ [mkCRSSparsity nrow ncol d]).getD nid emptyNode)).isSome
        = true
    rw [List.getD_append_right _ _ _ _ (Nat.le_refl _), Nat.sub_self]
    rfl
  · intro h
    rcases hob : observe st h with _ | nd
    · rw [checkNode, hob]
      simp
    · rw [checkNode, hob]
      simp

end CasADi
